import Mathlib

/-!
Verification of the per-mode ADMM subproblem solver of this repository
(src/admm.py, class CPDADMM) against its natural-language specification.

The solver is embedded shallowly.  Matrices are real matrices indexed by
Fin, numpy's default matrix norm (Frobenius) is the square root of the sum
of squared entries, and the inner while-loop is a well-founded recursion on
the remaining iteration budget (the loop always terminates because the
counter grows while the budget is a fixed integer).  The proximal operator
dispatcher (src/proximal_operators.py) is not part of this source snapshot,
so it is taken as an abstract parameter constrained only as the
specification describes it: a pure, deterministic, shape-preserving
function of the unconstrained estimate, the dual variable, the step size,
the constraint kind and the hyperparameters.

A second, untyped embedding (with explicit row and column counts, and
dimension-checked operations returning Option) is used for the claims about
shapes and shape mismatches, and a store-passing variant of that embedding
for the claim that the call never mutates its argument arrays.
-/

open Matrix

/-- Frobenius norm of a real matrix: the default of numpy.linalg.norm on a
2-d array, used at src/admm.py lines 74-75. -/
noncomputable def frobNorm {m n : ℕ} (A : Matrix (Fin m) (Fin n) ℝ) : ℝ :=
  Real.sqrt (∑ i, ∑ j, (A i j) ^ 2)

/-- Hyperparameter dictionary passed through, unread, to the proximal
operator dispatcher. -/
def HyperParams : Type := List (String × ℝ)

/-- Configuration fields of the CPDADMM dataclass (src/admm.py lines
17-22): tensor mode, constraint kind, hyperparameters, tolerance and
iteration budget (default -1).  The per-call matrix fields factor_mat_0 and
dual_var_0 are modelled separately as ADMMSnapshot because their shape is
fixed only at call time. -/
structure CPDADMM where
  tensor_mode : ℤ
  constraint : String
  hyperparams : HyperParams
  tol_error : ℝ
  n_iters : ℤ := -1

/-- Diagnostic snapshot fields factor_mat_0 and dual_var_0, written at the
start of each call (src/admm.py lines 46-47). -/
structure ADMMSnapshot (I R : ℕ) where
  factor_mat_0 : Matrix (Fin I) (Fin R) ℝ
  dual_var_0 : Matrix (Fin I) (Fin R) ℝ

/-- Modelled from the spec: the type of the proximal operator dispatcher
proximal_update_admm imported from src.proximal_operators, whose source is
not in this snapshot.  Per the spec (section 4.2) it is a pure
deterministic function of the unconstrained estimate, the dual variable,
the step size rho, the constraint kind and the hyperparameter mapping,
returning a matrix of identical shape; shape preservation is enforced here
by the indexed matrix type. -/
def ProxFun (I R : ℕ) : Type :=
  Matrix (Fin I) (Fin R) ℝ → Matrix (Fin I) (Fin R) ℝ → ℝ → String → HyperParams →
    Matrix (Fin I) (Fin R) ℝ

/-- Line 49 of src/admm.py: rank = factor.shape[1].  In the typed embedding
the column count of the factor matrix is its second type index. -/
def rankOf {I R : ℕ} (_factor : Matrix (Fin I) (Fin R) ℝ) : ℕ := R

/-- Lines 50-51 of src/admm.py: kr_hadamard = kr_product.T @ kr_product and
rho = np.trace(kr_hadamard) / rank, with rank read from factor.shape[1]. -/
noncomputable def admmRho {J I R : ℕ} (kr_product : Matrix (Fin J) (Fin R) ℝ)
    (factor : Matrix (Fin I) (Fin R) ℝ) : ℝ :=
  Matrix.trace (kr_productᵀ * kr_product) / (rankOf factor : ℝ)

/-- Line 52 of src/admm.py: L = kr_hadamard + (rho + bsum) * np.eye(rank). -/
noncomputable def admmL {J R : ℕ} (kr_product : Matrix (Fin J) (Fin R) ℝ)
    (rho bsum : ℝ) : Matrix (Fin R) (Fin R) ℝ :=
  kr_productᵀ * kr_product + (rho + bsum) • (1 : Matrix (Fin R) (Fin R) ℝ)

/-- Line 53 of src/admm.py: F = kr_product.T @ tensor_unfolding. -/
def admmF {J I R : ℕ} (kr_product : Matrix (Fin J) (Fin R) ℝ)
    (tensor_unfolding : Matrix (Fin J) (Fin I) ℝ) : Matrix (Fin R) (Fin I) ℝ :=
  kr_productᵀ * tensor_unfolding

/-- Result of one inner iteration (src/admm.py lines 58-75): the
unconstrained ridge estimate factor_t, the new constrained factor, the new
dual variable, and the two relative residuals. -/
structure StepResult (I R : ℕ) where
  factor_t : Matrix (Fin I) (Fin R) ℝ
  factor : Matrix (Fin I) (Fin R) ℝ
  dual_var : Matrix (Fin I) (Fin R) ℝ
  prim_res : ℝ
  dual_res : ℝ

/-- One inner iteration of the while-loop body, src/admm.py lines 58-75:
ridge update, proximal update, dual ascent, residuals. -/
noncomputable def admmStep {I R : ℕ} (cfg : CPDADMM) (prox : ProxFun I R)
    (rho : ℝ) (L : Matrix (Fin R) (Fin R) ℝ) (F : Matrix (Fin R) (Fin I) ℝ)
    (bsum : ℝ) (factor_conv factor dual_var : Matrix (Fin I) (Fin R) ℝ) :
    StepResult I R :=
  let factor_t := (L⁻¹ * (F + rho • (factor + dual_var)ᵀ + bsum • factor_convᵀ))ᵀ
  let factor_0 := factor
  let factor' := prox factor_t dual_var rho cfg.constraint cfg.hyperparams
  let dual_var' := dual_var + factor' - factor_t
  let prim_res := frobNorm (factor' - factor_t) / frobNorm factor'
  let dual_res := frobNorm (factor' - factor_0) / frobNorm dual_var'
  ⟨factor_t, factor', dual_var', prim_res, dual_res⟩

/-- The while-loop of src/admm.py lines 56-83, entered with the iteration
counter itr.  After each iteration the counter is incremented and the loop
exits when (prim_res < tol_error and dual_res < tol_error) or
itr >= n_iters; the final factor, dual variable and counter are returned.
The recursion is well-founded on the remaining budget (n_iters - itr),
which strictly decreases whenever the loop continues. -/
noncomputable def admmLoop {I R : ℕ} (cfg : CPDADMM) (prox : ProxFun I R)
    (rho : ℝ) (L : Matrix (Fin R) (Fin R) ℝ) (F : Matrix (Fin R) (Fin I) ℝ)
    (bsum : ℝ) (factor_conv : Matrix (Fin I) (Fin R) ℝ)
    (factor dual_var : Matrix (Fin I) (Fin R) ℝ) (itr : ℤ) :
    Matrix (Fin I) (Fin R) ℝ × Matrix (Fin I) (Fin R) ℝ × ℤ :=
  let s := admmStep cfg prox rho L F bsum factor_conv factor dual_var
  if h : (s.prim_res < cfg.tol_error ∧ s.dual_res < cfg.tol_error) ∨
      itr + 1 ≥ cfg.n_iters then
    (s.factor, s.dual_var, itr + 1)
  else
    admmLoop cfg prox rho L F bsum factor_conv s.factor s.dual_var (itr + 1)
  termination_by (cfg.n_iters - itr).toNat
  decreasing_by
    push_neg at h
    omega

/-- The full call, src/admm.py lines 32-85: record the entry state in the
diagnostic snapshot, compute rank, rho, L, F and factor_conv once, then run
the inner loop starting from itr = 0.  Returns the new snapshot together
with the final (factor, dual_var).  The previous snapshot is an argument
only to expose that the result does not depend on it. -/
noncomputable def CPDADMMcall {J I R : ℕ} (cfg : CPDADMM) (prox : ProxFun I R)
    (_snap : ADMMSnapshot I R)
    (tensor_unfolding : Matrix (Fin J) (Fin I) ℝ)
    (kr_product : Matrix (Fin J) (Fin R) ℝ)
    (factor dual_var : Matrix (Fin I) (Fin R) ℝ)
    (bsum : ℝ) :
    ADMMSnapshot I R × Matrix (Fin I) (Fin R) ℝ × Matrix (Fin I) (Fin R) ℝ :=
  let snap' : ADMMSnapshot I R := ⟨factor, dual_var⟩
  let rho := admmRho kr_product factor
  let L := admmL kr_product rho bsum
  let F := admmF kr_product tensor_unfolding
  let factor_conv := factor
  let out := admmLoop cfg prox rho L F bsum factor_conv factor dual_var 0
  (snap', out.1, out.2.1)

/-! ## Helper lemmas for the typed model -/

/-- The Gram matrix of any rectangular real matrix is symmetric. -/
theorem gram_isSymm {J R : ℕ} (k : Matrix (Fin J) (Fin R) ℝ) :
    (kᵀ * k).IsSymm := by
  show (kᵀ * k)ᵀ = kᵀ * k
  rw [Matrix.transpose_mul, Matrix.transpose_transpose]

/-- The Gram matrix of any rectangular real matrix is positive
semidefinite. -/
theorem gram_posSemidef {J R : ℕ} (k : Matrix (Fin J) (Fin R) ℝ) :
    (kᵀ * k).PosSemidef := by
  have h := Matrix.posSemidef_conjTranspose_mul_self k
  rwa [Matrix.conjTranspose_eq_transpose_of_trivial] at h

/-- A positive multiple of the identity matrix is positive definite. -/
theorem smul_one_posDef {n : ℕ} {c : ℝ} (hc : 0 < c) :
    (c • (1 : Matrix (Fin n) (Fin n) ℝ)).PosDef := by
  have h : c • (1 : Matrix (Fin n) (Fin n) ℝ) = Matrix.diagonal (fun _ => c) := by
    ext i j
    simp only [Matrix.smul_apply, Matrix.one_apply, Matrix.diagonal_apply, smul_eq_mul]
    split_ifs <;> simp
  rw [h]
  exact Matrix.PosDef.diagonal (fun _ => hc)

/-- Identity proximal operator: a concrete admissible instance of the
abstract dispatcher, used to instantiate universally quantified claims. -/
def proxId (I R : ℕ) : ProxFun I R := fun factor_t _ _ _ _ => factor_t

/-! ## Claim theorems on the typed model -/

/-- C1: each inner iteration performs, in order, the unconstrained ridge
update factor_t = (L^-1 (F + rho (factor + dual_var)^T + bsum
factor_conv^T))^T, the proximal-operator application producing the new
factor, the dual ascent dual_var <- dual_var + factor - factor_t, and then
computes the relative primal residual as the Frobenius norm of
(factor - factor_t) over the norm of the new factor and the relative dual
residual as the norm of (factor - factor_0) over the norm of the freshly
updated dual variable, factor_0 being the pre-update factor. -/
theorem claim_C1_inner_iteration {I R : ℕ} (cfg : CPDADMM) (prox : ProxFun I R)
    (rho : ℝ) (L : Matrix (Fin R) (Fin R) ℝ) (F : Matrix (Fin R) (Fin I) ℝ)
    (bsum : ℝ) (factor_conv factor dual_var : Matrix (Fin I) (Fin R) ℝ) :
    (admmStep cfg prox rho L F bsum factor_conv factor dual_var).factor_t =
      (L⁻¹ * (F + rho • (factor + dual_var)ᵀ + bsum • factor_convᵀ))ᵀ ∧
    (admmStep cfg prox rho L F bsum factor_conv factor dual_var).factor =
      prox (admmStep cfg prox rho L F bsum factor_conv factor dual_var).factor_t
        dual_var rho cfg.constraint cfg.hyperparams ∧
    (admmStep cfg prox rho L F bsum factor_conv factor dual_var).dual_var =
      dual_var + (admmStep cfg prox rho L F bsum factor_conv factor dual_var).factor
        - (admmStep cfg prox rho L F bsum factor_conv factor dual_var).factor_t ∧
    (admmStep cfg prox rho L F bsum factor_conv factor dual_var).prim_res =
      frobNorm ((admmStep cfg prox rho L F bsum factor_conv factor dual_var).factor
          - (admmStep cfg prox rho L F bsum factor_conv factor dual_var).factor_t) /
        frobNorm (admmStep cfg prox rho L F bsum factor_conv factor dual_var).factor ∧
    (admmStep cfg prox rho L F bsum factor_conv factor dual_var).dual_res =
      frobNorm ((admmStep cfg prox rho L F bsum factor_conv factor dual_var).factor
          - factor) /
        frobNorm (admmStep cfg prox rho L F bsum factor_conv factor dual_var).dual_var :=
  ⟨rfl, rfl, rfl, rfl, rfl⟩

/-- C2: the inner loop exits, after completing an iteration, exactly when
(primal residual < tolerance and dual residual < tolerance) or the
incremented iteration counter has reached the configured maximum; with
n_iters = 1 exactly one inner iteration is performed regardless of the
residual values, and likewise with a negative sentinel (such as the
default n_iters = -1) the loop terminates after a single iteration. -/
theorem claim_C2_loop_exit {I R : ℕ} (cfg : CPDADMM) (prox : ProxFun I R)
    (rho : ℝ) (L : Matrix (Fin R) (Fin R) ℝ) (F : Matrix (Fin R) (Fin I) ℝ)
    (bsum : ℝ) (factor_conv factor dual_var : Matrix (Fin I) (Fin R) ℝ) :
    (∀ itr : ℤ,
      admmLoop cfg prox rho L F bsum factor_conv factor dual_var itr =
        (let s := admmStep cfg prox rho L F bsum factor_conv factor dual_var
         if (s.prim_res < cfg.tol_error ∧ s.dual_res < cfg.tol_error) ∨
             itr + 1 ≥ cfg.n_iters then
           (s.factor, s.dual_var, itr + 1)
         else
           admmLoop cfg prox rho L F bsum factor_conv s.factor s.dual_var (itr + 1))) ∧
    (cfg.n_iters = 1 →
      (admmLoop cfg prox rho L F bsum factor_conv factor dual_var 0).2.2 = 1) ∧
    (cfg.n_iters < 0 →
      (admmLoop cfg prox rho L F bsum factor_conv factor dual_var 0).2.2 = 1) := by
  refine ⟨fun itr => ?_, fun h1 => ?_, fun hneg => ?_⟩
  · rw [admmLoop]
    simp only [dite_eq_ite]
  · rw [admmLoop, dif_pos (Or.inr (by omega))]
    norm_num
  · rw [admmLoop, dif_pos (Or.inr (by omega))]
    norm_num

/-- Witness for C2 at concrete inputs: with n_iters = 1 and with the
default sentinel n_iters = -1 the loop performs exactly one iteration. -/
theorem claim_C2_loop_exit_witness :
    (admmLoop ⟨0, "nonneg", [], 1/2, 1⟩ (proxId 1 1) 0 0 0 0 0 0 0 0).2.2 = 1 ∧
    (admmLoop ⟨0, "nonneg", [], 1/2, -1⟩ (proxId 1 1) 0 0 0 0 0 0 0 0).2.2 = 1 :=
  ⟨(claim_C2_loop_exit ⟨0, "nonneg", [], 1/2, 1⟩ (proxId 1 1)
      0 0 0 0 0 0 0).2.1 rfl,
   (claim_C2_loop_exit ⟨0, "nonneg", [], 1/2, -1⟩ (proxId 1 1)
      0 0 0 0 0 0 0).2.2 (by norm_num)⟩

/-- C3: with rank R at least 1, the step size rho equals
trace(kr_product^T kr_product) / R exactly, and its value does not depend
on the factor or dual_var arguments (the factor enters only through its
column count R, and the dual variable not at all). -/
theorem claim_C3_rho {J I R : ℕ} (hR : 1 ≤ R) (kr_product : Matrix (Fin J) (Fin R) ℝ)
    (factor dual_var factor' dual_var' : Matrix (Fin I) (Fin R) ℝ) :
    admmRho kr_product factor = Matrix.trace (kr_productᵀ * kr_product) / (R : ℝ) ∧
    admmRho kr_product factor = admmRho kr_product factor' :=
  ⟨rfl, rfl⟩

/-- Witness for C3 at a concrete input. -/
theorem claim_C3_rho_witness :
    1 ≤ 1 ∧
    (admmRho (1 : Matrix (Fin 1) (Fin 1) ℝ) (0 : Matrix (Fin 1) (Fin 1) ℝ) =
        Matrix.trace ((1 : Matrix (Fin 1) (Fin 1) ℝ)ᵀ * 1) / ((1 : ℕ) : ℝ) ∧
      admmRho (1 : Matrix (Fin 1) (Fin 1) ℝ) (0 : Matrix (Fin 1) (Fin 1) ℝ) =
        admmRho (1 : Matrix (Fin 1) (Fin 1) ℝ) (1 : Matrix (Fin 1) (Fin 1) ℝ)) :=
  ⟨by decide,
   claim_C3_rho (by decide) (1 : Matrix (Fin 1) (Fin 1) ℝ)
     (0 : Matrix (Fin 1) (Fin 1) ℝ) 0 (1 : Matrix (Fin 1) (Fin 1) ℝ) 0⟩

/-- C4: the regularized system matrix equals Gram + (rho + bsum) I_R with
Gram = kr_product^T kr_product; it is always symmetric, and it is positive
definite whenever rho + bsum > 0. -/
theorem claim_C4_system_matrix {J R : ℕ} (kr_product : Matrix (Fin J) (Fin R) ℝ)
    (rho bsum : ℝ) :
    admmL kr_product rho bsum =
      kr_productᵀ * kr_product + (rho + bsum) • (1 : Matrix (Fin R) (Fin R) ℝ) ∧
    (admmL kr_product rho bsum).IsSymm ∧
    (0 < rho + bsum → (admmL kr_product rho bsum).PosDef) := by
  refine ⟨rfl, ?_, fun hpos => ?_⟩
  · exact (gram_isSymm kr_product).add ((Matrix.isSymm_one).smul (rho + bsum))
  · exact Matrix.PosDef.posSemidef_add (gram_posSemidef kr_product) (smul_one_posDef hpos)

/-- Witness for C4 at a concrete input with rho + bsum = 1 > 0. -/
theorem claim_C4_system_matrix_witness :
    (0 : ℝ) < 1 + 0 ∧ (admmL (1 : Matrix (Fin 1) (Fin 1) ℝ) 1 0).PosDef :=
  ⟨by norm_num,
   (claim_C4_system_matrix (1 : Matrix (Fin 1) (Fin 1) ℝ) 1 0).2.2 (by norm_num)⟩

/-- C9: after a call, the diagnostic snapshot holds exactly the factor and
dual variable as they were at call entry, and the prior snapshot contents
have no effect on the call result at all. -/
theorem claim_C9_snapshot {J I R : ℕ} (cfg : CPDADMM) (prox : ProxFun I R)
    (snap snap' : ADMMSnapshot I R)
    (tensor_unfolding : Matrix (Fin J) (Fin I) ℝ)
    (kr_product : Matrix (Fin J) (Fin R) ℝ)
    (factor dual_var : Matrix (Fin I) (Fin R) ℝ) (bsum : ℝ) :
    (CPDADMMcall cfg prox snap tensor_unfolding kr_product factor dual_var bsum).1 =
      ⟨factor, dual_var⟩ ∧
    CPDADMMcall cfg prox snap tensor_unfolding kr_product factor dual_var bsum =
      CPDADMMcall cfg prox snap' tensor_unfolding kr_product factor dual_var bsum :=
  ⟨rfl, rfl⟩

/-! ## C6: unguarded division by zero in the residual computation -/

/-- A concrete admissible proximal operator (pure, deterministic,
shape-preserving): subtract the dual variable from the estimate. -/
noncomputable def proxSubDual : ProxFun 1 1 := fun factor_t dual_var _ _ _ => factor_t - dual_var

/-- Concrete configuration for the degenerate-residual exhibit. -/
noncomputable def cfgC6 : CPDADMM := ⟨0, "shift", [], 1/10, 10⟩

/-- Concrete dual variable for the degenerate-residual exhibit. -/
noncomputable def dualC6 : Matrix (Fin 1) (Fin 1) ℝ := !![3]

/-- The inner-iteration state reached from tensor_unfolding = 0,
kr_product = 0, factor = 1, dual_var = [[3]], bsum = 1, exactly as the
solver computes it: rho, L and F are obtained from the setup lines and the
step is the loop body. -/
noncomputable def stepC6 : StepResult 1 1 :=
  admmStep cfgC6 proxSubDual
    (admmRho (0 : Matrix (Fin 1) (Fin 1) ℝ) (1 : Matrix (Fin 1) (Fin 1) ℝ))
    (admmL (0 : Matrix (Fin 1) (Fin 1) ℝ)
      (admmRho (0 : Matrix (Fin 1) (Fin 1) ℝ) (1 : Matrix (Fin 1) (Fin 1) ℝ)) 1)
    (admmF (0 : Matrix (Fin 1) (Fin 1) ℝ) (0 : Matrix (Fin 1) (Fin 1) ℝ))
    1 (1 : Matrix (Fin 1) (Fin 1) ℝ) (1 : Matrix (Fin 1) (Fin 1) ℝ) dualC6

/-- The unconstrained estimate of the exhibit step equals the factor
(kr_product = 0 and rho = 0 make the ridge update return the anchor). -/
theorem stepC6_factor_t : stepC6.factor_t = (1 : Matrix (Fin 1) (Fin 1) ℝ) := by
  show ((admmL (0 : Matrix (Fin 1) (Fin 1) ℝ)
      (admmRho (0 : Matrix (Fin 1) (Fin 1) ℝ) (1 : Matrix (Fin 1) (Fin 1) ℝ)) 1)⁻¹ *
      (admmF (0 : Matrix (Fin 1) (Fin 1) ℝ) (0 : Matrix (Fin 1) (Fin 1) ℝ) +
        admmRho (0 : Matrix (Fin 1) (Fin 1) ℝ) (1 : Matrix (Fin 1) (Fin 1) ℝ) •
          ((1 : Matrix (Fin 1) (Fin 1) ℝ) + dualC6)ᵀ +
        (1 : ℝ) • (1 : Matrix (Fin 1) (Fin 1) ℝ)ᵀ))ᵀ = 1
  have hrho : admmRho (0 : Matrix (Fin 1) (Fin 1) ℝ) (1 : Matrix (Fin 1) (Fin 1) ℝ) = 0 := by
    simp [admmRho, rankOf]
  have hL : admmL (0 : Matrix (Fin 1) (Fin 1) ℝ)
      (admmRho (0 : Matrix (Fin 1) (Fin 1) ℝ) (1 : Matrix (Fin 1) (Fin 1) ℝ)) 1 = 1 := by
    simp [admmL, hrho]
  have hF : admmF (0 : Matrix (Fin 1) (Fin 1) ℝ) (0 : Matrix (Fin 1) (Fin 1) ℝ) = 0 := by
    simp [admmF]
  rw [hL, hF, hrho]
  have hinv : (1 : Matrix (Fin 1) (Fin 1) ℝ)⁻¹ = 1 :=
    Matrix.inv_eq_right_inv (one_mul 1)
  rw [hinv]
  simp

/-- C6 exhibit: the claim says a zero residual denominator is met by an
explicit defined policy, but the code divides unconditionally.  At the
concrete input above, the just-updated dual variable has Frobenius norm
exactly zero, the dual residual is computed as numerator divided by that
zero norm with no guard, and the numerator norm is 3 (nonzero), so the
division is genuinely degenerate (in IEEE arithmetic it yields infinity;
no branch of the code defines or intercepts this case). -/
theorem claim_C6_degenerate_residual_unguarded :
    frobNorm stepC6.dual_var = 0 ∧
    stepC6.dual_res =
      frobNorm (stepC6.factor - (1 : Matrix (Fin 1) (Fin 1) ℝ)) / frobNorm stepC6.dual_var ∧
    frobNorm (stepC6.factor - (1 : Matrix (Fin 1) (Fin 1) ℝ)) = 3 := by
  have hdv : stepC6.dual_var = 0 := by
    show dualC6 + (stepC6.factor_t - dualC6) - stepC6.factor_t = 0
    abel
  have hfac : stepC6.factor = (1 : Matrix (Fin 1) (Fin 1) ℝ) - dualC6 := by
    show stepC6.factor_t - dualC6 = (1 : Matrix (Fin 1) (Fin 1) ℝ) - dualC6
    rw [stepC6_factor_t]
  refine ⟨?_, rfl, ?_⟩
  · rw [hdv]
    simp [frobNorm]
  · rw [hfac]
    have h1 : (1 : Matrix (Fin 1) (Fin 1) ℝ) - dualC6 - 1 = -dualC6 := by abel
    rw [h1]
    have h9 : (∑ i : Fin 1, ∑ j : Fin 1, ((-dualC6) i j) ^ 2) = 9 := by
      simp [dualC6, Fin.sum_univ_one]
      norm_num
    rw [frobNorm, h9]
    rw [show (9 : ℝ) = 3 ^ 2 by norm_num, Real.sqrt_sq (by norm_num)]

/-! ## C8: construction-time validation -/

/-- Construction of the CPDADMM dataclass (src/admm.py lines 9-22).  The
generated dataclass initializer simply stores the five configuration
fields and performs no validation of any kind, so the embedded
construction never fails; the Except codomain exists only so that the
claimed construction-time failure is expressible. -/
def mkCPDADMM (tensor_mode : ℤ) (constraint : String) (hyperparams : HyperParams)
    (tol_error : ℝ) (n_iters : ℤ) : Except String CPDADMM :=
  .ok ⟨tensor_mode, constraint, hyperparams, tol_error, n_iters⟩

/-- Modelled from the spec: the constraint-kind validation performed by
the proximal operator dispatcher (src/proximal_operators.py, absent from
this snapshot).  Per spec section 4.2 the dispatcher validates that the
constraint kind is known and signals a configuration error otherwise; it
is invoked from the inner loop body once per iteration, never at
construction.  Only the validation aspect is modelled; the known kinds
are the spec examples. -/
def proxDispatchValidate (constraint : String) : Except String Unit :=
  if constraint = "nonneg" ∨ constraint = "sparse" ∨ constraint = "normalize" then
    .ok ()
  else
    .error "InvalidConstraint"

/-- C8 counterexample: constructing a solver with an unknown constraint
kind and a negative tolerance succeeds (returns the stored configuration
rather than failing), refuting the claim that an invalid configuration
causes a failure at construction time. -/
theorem claim_C8_counterexample :
    mkCPDADMM 0 "no_such_constraint" [] (-1) 5 =
      .ok ⟨0, "no_such_constraint", [], -1, 5⟩ := rfl

/-- C8 amended: construction stores any configuration without validation
(rank is not even a construction parameter, being read from factor.shape[1]
at call time), and an unknown constraint kind is rejected only by the
proximal dispatcher, which the loop body invokes during the call. -/
theorem claim_C8_amended (tensor_mode : ℤ) (constraint : String)
    (hyperparams : HyperParams) (tol_error : ℝ) (n_iters : ℤ) :
    mkCPDADMM tensor_mode constraint hyperparams tol_error n_iters =
      .ok ⟨tensor_mode, constraint, hyperparams, tol_error, n_iters⟩ ∧
    proxDispatchValidate "no_such_constraint" = .error "InvalidConstraint" :=
  ⟨rfl, rfl⟩

/-! ## Untyped embedding: numpy arrays with explicit dimensions -/

/-- A dense 2-d numpy array: explicit row and column counts together with
an entry function (entries outside the stated bounds are irrelevant). -/
structure UMat where
  rows : ℕ
  cols : ℕ
  entry : ℕ → ℕ → ℝ

/-- numpy transpose: a view with swapped dimensions. -/
def utrans (a : UMat) : UMat := ⟨a.cols, a.rows, fun i j => a.entry j i⟩

/-- Raw matrix product; meaningful when a.cols = b.rows, which the checked
wrapper umulChk enforces as the numpy @ operator does. -/
def umul (a b : UMat) : UMat :=
  ⟨a.rows, b.cols, fun i j => ∑ x ∈ Finset.range a.cols, a.entry i x * b.entry x j⟩

/-- Checked matrix product: numpy @ raises on an inner-dimension
mismatch. -/
def umulChk (a b : UMat) : Option UMat :=
  if a.cols = b.rows then some (umul a b) else none

/-- Raw entrywise sum. -/
def uadd (a b : UMat) : UMat := ⟨a.rows, a.cols, fun i j => a.entry i j + b.entry i j⟩

/-- Checked entrywise sum: numpy + on two 2-d arrays of the same shape. -/
def uaddChk (a b : UMat) : Option UMat :=
  if a.rows = b.rows ∧ a.cols = b.cols then some (uadd a b) else none

/-- Raw entrywise difference. -/
def usub (a b : UMat) : UMat := ⟨a.rows, a.cols, fun i j => a.entry i j - b.entry i j⟩

/-- Checked entrywise difference. -/
def usubChk (a b : UMat) : Option UMat :=
  if a.rows = b.rows ∧ a.cols = b.cols then some (usub a b) else none

/-- Scalar multiple of an array. -/
def usmul (c : ℝ) (a : UMat) : UMat := ⟨a.rows, a.cols, fun i j => c * a.entry i j⟩

/-- np.eye(n). -/
def ueye (n : ℕ) : UMat := ⟨n, n, fun i j => if i = j then 1 else 0⟩

/-- np.trace: sum of the diagonal entries. -/
noncomputable def utrace (a : UMat) : ℝ := ∑ i ∈ Finset.range a.rows, a.entry i i

/-- numpy.linalg.norm default on a 2-d array: the Frobenius norm over the
entries in bounds. -/
noncomputable def unorm (a : UMat) : ℝ :=
  Real.sqrt (∑ i ∈ Finset.range a.rows, ∑ j ∈ Finset.range a.cols, (a.entry i j) ^ 2)

/-- The square Fin-indexed matrix carried by an array (reading a.rows by
a.rows entries): the matrix numpy.linalg.inv factorizes. -/
noncomputable def usq (a : UMat) : Matrix (Fin a.rows) (Fin a.rows) ℝ :=
  fun p q => a.entry p.1 q.1

/-- Raw inverse of a square array: the Mathlib matrix inverse of the
carried square matrix, wrapped back; junk on non-square input (which
uinvChk rules out, as numpy.linalg.inv raises there). -/
noncomputable def uinvRaw (a : UMat) : UMat :=
  ⟨a.rows, a.rows, fun i j =>
    if hi : i < a.rows then
      if hj : j < a.rows then
        (usq a)⁻¹ ⟨i, hi⟩ ⟨j, hj⟩
      else 0
    else 0⟩

/-- Checked inverse: numpy.linalg.inv raises on a non-square input, and
raises LinAlgError on an exactly singular square matrix (its LU solve
fails); both failure modes return none here. -/
noncomputable def uinvChk (a : UMat) : Option UMat :=
  if a.rows = a.cols ∧ (usq a).det ≠ 0 then some (uinvRaw a) else none

/-- The type of the proximal operator dispatcher in the untyped embedding
(modelled from the spec as in ProxFun, without the type-level shape
guarantee: shape preservation becomes an explicit hypothesis). -/
def UProxFun : Type := UMat → UMat → ℝ → String → HyperParams → UMat

/-- Identity proximal operator in the untyped embedding. -/
def uproxId : UProxFun := fun factor_t _ _ _ _ => factor_t

/-- Untyped dimension-checked inner iteration: the loop body of
src/admm.py lines 58-75 with every numpy operation checked exactly where
numpy would raise.  Returns the ridge estimate, the new factor, the new
dual variable and the two residuals. -/
noncomputable def ustepChk (cfg : CPDADMM) (prox : UProxFun) (rho : ℝ) (L F : UMat)
    (bsum : ℝ) (factor_conv factor dual_var : UMat) :
    Option (UMat × UMat × UMat × ℝ × ℝ) := do
  let Linv ← uinvChk L
  let s1 ← uaddChk factor dual_var
  let s2 ← uaddChk F (usmul rho (utrans s1))
  let s3 ← uaddChk s2 (usmul bsum (utrans factor_conv))
  let p ← umulChk Linv s3
  let factor_t := utrans p
  let factor' := prox factor_t dual_var rho cfg.constraint cfg.hyperparams
  let d1 ← uaddChk dual_var factor'
  let dual_var' ← usubChk d1 factor_t
  let n1 ← usubChk factor' factor_t
  let prim_res := unorm n1 / unorm factor'
  let n2 ← usubChk factor' factor
  let dual_res := unorm n2 / unorm dual_var'
  some (factor_t, factor', dual_var', prim_res, dual_res)

/-- Untyped dimension-checked while-loop of src/admm.py lines 56-83. -/
noncomputable def uloopChk (cfg : CPDADMM) (prox : UProxFun) (rho : ℝ) (L F : UMat)
    (bsum : ℝ) (factor_conv : UMat) (factor dual_var : UMat) (itr : ℤ) :
    Option (UMat × UMat × ℤ) :=
  match ustepChk cfg prox rho L F bsum factor_conv factor dual_var with
  | none => none
  | some (_, factor', dual_var', prim_res, dual_res) =>
    if h : (prim_res < cfg.tol_error ∧ dual_res < cfg.tol_error) ∨
        itr + 1 ≥ cfg.n_iters then
      some (factor', dual_var', itr + 1)
    else
      uloopChk cfg prox rho L F bsum factor_conv factor' dual_var' (itr + 1)
  termination_by (cfg.n_iters - itr).toNat
  decreasing_by
    push_neg at h
    omega

/-- Untyped dimension-checked full call, src/admm.py lines 32-85: rank is
read from factor.shape[1], the Gram matrix, rho, L and F are computed in
the order of the source, and the loop runs from itr = 0. -/
noncomputable def ucallChk (cfg : CPDADMM) (prox : UProxFun)
    (tensor_unfolding kr_product factor dual_var : UMat) (bsum : ℝ) :
    Option (UMat × UMat) := do
  let rank := factor.cols
  let kr_hadamard ← umulChk (utrans kr_product) kr_product
  let rho := utrace kr_hadamard / (rank : ℝ)
  let L ← uaddChk kr_hadamard (usmul (rho + bsum) (ueye rank))
  let F ← umulChk (utrans kr_product) tensor_unfolding
  let factor_conv := factor
  let out ← uloopChk cfg prox rho L F bsum factor_conv factor dual_var 0
  some (out.1, out.2.1)

/-! ## C7: no up-front shape validation -/

/-- Concrete tensor unfolding with 4 rows (J = 4 on its side). -/
def tC7 : UMat := ⟨4, 5, fun _ _ => 1⟩

/-- Concrete Khatri-Rao product with 3 rows (J = 3 on its side): its row
count disagrees with the unfolding. -/
def kC7 : UMat := ⟨3, 2, fun _ _ => 1⟩

/-- Concrete factor matrix, 5 x 2. -/
def fC7 : UMat := ⟨5, 2, fun _ _ => 0⟩

/-- Concrete dual variable, 5 x 2. -/
def dC7 : UMat := ⟨5, 2, fun _ _ => 0⟩

/-- Concrete configuration for the shape-mismatch exhibit. -/
def cfgC7 : CPDADMM := ⟨0, "nonneg", [], 0, 5⟩

/-- C7 counterexample: on inputs whose J dimensions disagree (kr_product
has 3 rows, tensor_unfolding has 4), the Gram-matrix computation
nevertheless succeeds, and the call fails only at F = kr_product.T @
tensor_unfolding, refuting the claim that the mismatch is detected and the
call fails before performing any computation. -/
theorem claim_C7_counterexample :
    (umulChk (utrans kC7) kC7).isSome = true ∧
    umulChk (utrans kC7) tC7 = none ∧
    ucallChk cfgC7 uproxId tC7 kC7 fC7 dC7 0 = none := by
  refine ⟨rfl, rfl, rfl⟩

/-- C7 amended: there is no up-front shape validation; whenever the row
counts of kr_product and tensor_unfolding disagree (with consistent rank
R), the Gram matrix, rho and L are computed successfully first and the
call fails only at the product F = kr_product.T @ tensor_unfolding. -/
theorem claim_C7_no_upfront_validation (cfg : CPDADMM) (prox : UProxFun)
    (tensor_unfolding kr_product factor dual_var : UMat) (bsum : ℝ)
    (hJ : kr_product.rows ≠ tensor_unfolding.rows)
    (hR : factor.cols = kr_product.cols) :
    (umulChk (utrans kr_product) kr_product).isSome = true ∧
    umulChk (utrans kr_product) tensor_unfolding = none ∧
    ucallChk cfg prox tensor_unfolding kr_product factor dual_var bsum = none := by
  have h1 : umulChk (utrans kr_product) kr_product =
      some (umul (utrans kr_product) kr_product) := by
    simp [umulChk, utrans]
  have h2 : umulChk (utrans kr_product) tensor_unfolding = none := by
    simp [umulChk, utrans, hJ]
  refine ⟨by rw [h1]; rfl, h2, ?_⟩
  simp only [ucallChk, h1, h2, Option.bind_eq_bind, Option.some_bind]
  have h3 : uaddChk (umul (utrans kr_product) kr_product)
      (usmul (utrace (umul (utrans kr_product) kr_product) / (factor.cols : ℝ) + bsum)
        (ueye factor.cols)) =
      some (uadd (umul (utrans kr_product) kr_product)
        (usmul (utrace (umul (utrans kr_product) kr_product) / (factor.cols : ℝ) + bsum)
          (ueye factor.cols))) := by
    simp [uaddChk, umul, utrans, usmul, ueye, hR]
  rw [h3]
  rfl

/-- Witness for the C7 amended theorem at the concrete mismatched input. -/
theorem claim_C7_no_upfront_validation_witness :
    (kC7.rows ≠ tC7.rows ∧ fC7.cols = kC7.cols) ∧
    ((umulChk (utrans kC7) kC7).isSome = true ∧
     umulChk (utrans kC7) tC7 = none ∧
     ucallChk cfgC7 uproxId tC7 kC7 fC7 dC7 0 = none) :=
  ⟨⟨by decide, rfl⟩,
   claim_C7_no_upfront_validation cfgC7 uproxId tC7 kC7 fC7 dC7 0 (by decide) rfl⟩

/-! ### Dimension bookkeeping for the untyped operations -/

/-- Row count of a transpose. -/
theorem utrans_rows (a : UMat) : (utrans a).rows = a.cols := rfl

/-- Column count of a transpose. -/
theorem utrans_cols (a : UMat) : (utrans a).cols = a.rows := rfl

/-- Row count of a product. -/
theorem umul_rows (a b : UMat) : (umul a b).rows = a.rows := rfl

/-- Column count of a product. -/
theorem umul_cols (a b : UMat) : (umul a b).cols = b.cols := rfl

/-- Row count of a sum. -/
theorem uadd_rows (a b : UMat) : (uadd a b).rows = a.rows := rfl

/-- Column count of a sum. -/
theorem uadd_cols (a b : UMat) : (uadd a b).cols = a.cols := rfl

/-- Row count of a difference. -/
theorem usub_rows (a b : UMat) : (usub a b).rows = a.rows := rfl

/-- Column count of a difference. -/
theorem usub_cols (a b : UMat) : (usub a b).cols = a.cols := rfl

/-- Row count of a scalar multiple. -/
theorem usmul_rows (c : ℝ) (a : UMat) : (usmul c a).rows = a.rows := rfl

/-- Column count of a scalar multiple. -/
theorem usmul_cols (c : ℝ) (a : UMat) : (usmul c a).cols = a.cols := rfl

/-- Row count of a raw inverse. -/
theorem uinvRaw_rows (a : UMat) : (uinvRaw a).rows = a.rows := rfl

/-- Column count of a raw inverse. -/
theorem uinvRaw_cols (a : UMat) : (uinvRaw a).cols = a.rows := rfl

/-- Row count of an identity. -/
theorem ueye_rows (n : ℕ) : (ueye n).rows = n := rfl

/-- Column count of an identity. -/
theorem ueye_cols (n : ℕ) : (ueye n).cols = n := rfl

/-- The unchecked value of one inner iteration (the same loop body as
ustepChk with the raw operations): used to express that the checked
iteration succeeds on well-shaped inputs. -/
noncomputable def ustepRaw (cfg : CPDADMM) (prox : UProxFun) (rho : ℝ) (L F : UMat)
    (bsum : ℝ) (factor_conv factor dual_var : UMat) :
    UMat × UMat × UMat × ℝ × ℝ :=
  let factor_t := utrans (umul (uinvRaw L)
    (uadd (uadd F (usmul rho (utrans (uadd factor dual_var))))
      (usmul bsum (utrans factor_conv))))
  let factor' := prox factor_t dual_var rho cfg.constraint cfg.hyperparams
  let dual_var' := usub (uadd dual_var factor') factor_t
  let prim_res := unorm (usub factor' factor_t) / unorm factor'
  let dual_res := unorm (usub factor' factor) / unorm dual_var'
  (factor_t, factor', dual_var', prim_res, dual_res)

/-- On well-shaped inputs (L of shape R x R, F of shape R x I, the factor,
dual variable and anchor of shape I x R) with a shape-preserving proximal
operator and a nonsingular L, every check in the inner iteration passes. -/
theorem ustepChk_eq {I R : ℕ} (cfg : CPDADMM) (prox : UProxFun) (rho bsum : ℝ)
    (L F factor_conv factor dual_var : UMat)
    (hproxR : ∀ m dv r c hp, (prox m dv r c hp).rows = m.rows)
    (hproxC : ∀ m dv r c hp, (prox m dv r c hp).cols = m.cols)
    (hLdet : (usq L).det ≠ 0)
    (hL1 : L.rows = R) (hL2 : L.cols = R)
    (hF1 : F.rows = R) (hF2 : F.cols = I)
    (hfc1 : factor_conv.rows = I) (hfc2 : factor_conv.cols = R)
    (hf1 : factor.rows = I) (hf2 : factor.cols = R)
    (hd1 : dual_var.rows = I) (hd2 : dual_var.cols = R) :
    ustepChk cfg prox rho L F bsum factor_conv factor dual_var =
      some (ustepRaw cfg prox rho L F bsum factor_conv factor dual_var) := by
  simp only [ustepChk, ustepRaw, uinvChk, uaddChk, usubChk, umulChk,
    utrans_rows, utrans_cols, umul_rows, umul_cols, uadd_rows, uadd_cols,
    usub_rows, usub_cols, usmul_rows, usmul_cols, uinvRaw_rows, uinvRaw_cols,
    hproxR, hproxC, hLdet, hL1, hL2, hF1, hF2, hfc1, hfc2, hf1, hf2, hd1, hd2,
    ne_eq, not_false_eq_true, and_self, and_true, true_and, if_true,
    eq_self_iff_true, Option.bind_eq_bind, Option.some_bind]

/-- On a singular square L the inner iteration fails at the very first
operation, the matrix inversion, as numpy.linalg.inv raises LinAlgError. -/
theorem ustepChk_none_of_singular (cfg : CPDADMM) (prox : UProxFun) (rho bsum : ℝ)
    (L F factor_conv factor dual_var : UMat)
    (hLdet : (usq L).det = 0) :
    ustepChk cfg prox rho L F bsum factor_conv factor dual_var = none := by
  have e1 : uinvChk L = none := by
    simp [uinvChk, hLdet]
  simp only [ustepChk, e1, Option.bind_eq_bind, Option.none_bind]

/-- Shape invariant of the checked inner loop: starting from a factor and
dual variable of shape I x R (with well-shaped L, F and anchor, a
nonsingular L and a shape-preserving proximal operator), every iteration
succeeds and the loop returns a factor and dual variable of shape I x R. -/
theorem uloopChk_dims (cfg : CPDADMM) (prox : UProxFun) (rho bsum : ℝ)
    (L F factor_conv : UMat) {I R : ℕ}
    (hproxR : ∀ m dv r c hp, (prox m dv r c hp).rows = m.rows)
    (hproxC : ∀ m dv r c hp, (prox m dv r c hp).cols = m.cols)
    (hLdet : (usq L).det ≠ 0)
    (hL1 : L.rows = R) (hL2 : L.cols = R)
    (hF1 : F.rows = R) (hF2 : F.cols = I)
    (hfc1 : factor_conv.rows = I) (hfc2 : factor_conv.cols = R) :
    ∀ (fuel : ℕ) (itr : ℤ) (factor dual_var : UMat),
      (cfg.n_iters - itr).toNat = fuel →
      factor.rows = I → factor.cols = R → dual_var.rows = I → dual_var.cols = R →
      ∃ factor_out dual_out n,
        uloopChk cfg prox rho L F bsum factor_conv factor dual_var itr =
          some (factor_out, dual_out, n) ∧
        factor_out.rows = I ∧ factor_out.cols = R ∧
        dual_out.rows = I ∧ dual_out.cols = R := by
  intro fuel
  induction fuel using Nat.strong_induction_on with
  | _ fuel ih =>
    intro itr factor dual_var hfuel hf1 hf2 hd1 hd2
    rw [uloopChk, ustepChk_eq cfg prox rho bsum L F factor_conv factor dual_var
      hproxR hproxC hLdet hL1 hL2 hF1 hF2 hfc1 hfc2 hf1 hf2 hd1 hd2]
    simp only [ustepRaw]
    split
    · refine ⟨_, _, _, rfl, ?_, ?_, ?_, ?_⟩
      · simp [hproxR, utrans_rows, umul_cols, uadd_cols, hF2]
      · simp [hproxC, utrans_cols, umul_rows, uinvRaw_rows, hL1]
      · simp [usub_rows, uadd_rows, hd1]
      · simp [usub_cols, uadd_cols, hd2]
    · rename_i hcond
      push_neg at hcond
      refine ih (cfg.n_iters - (itr + 1)).toNat ?_ (itr + 1) _ _ rfl ?_ ?_ ?_ ?_
      · omega
      · simp [hproxR, utrans_rows, umul_cols, uadd_cols, hF2]
      · simp [hproxC, utrans_cols, umul_rows, uinvRaw_rows, hL1]
      · simp [usub_rows, uadd_rows, hd1]
      · simp [usub_cols, uadd_cols, hd2]

/-- Partial-correctness shape bookkeeping for one checked iteration: on
well-shaped operands, whenever the iteration returns at all (it raises
instead when L is singular), the ridge estimate, the new factor and the
new dual variable are all I x R. -/
theorem ustepChk_some_dims {I R : ℕ} (cfg : CPDADMM) (prox : UProxFun)
    (rho bsum : ℝ) (L F factor_conv factor dual_var : UMat)
    (hproxR : ∀ m dv r c hp, (prox m dv r c hp).rows = m.rows)
    (hproxC : ∀ m dv r c hp, (prox m dv r c hp).cols = m.cols)
    (hL1 : L.rows = R) (hL2 : L.cols = R)
    (hF1 : F.rows = R) (hF2 : F.cols = I)
    (hfc1 : factor_conv.rows = I) (hfc2 : factor_conv.cols = R)
    (hf1 : factor.rows = I) (hf2 : factor.cols = R)
    (hd1 : dual_var.rows = I) (hd2 : dual_var.cols = R)
    (s : UMat × UMat × UMat × ℝ × ℝ)
    (hs : ustepChk cfg prox rho L F bsum factor_conv factor dual_var = some s) :
    s.1.rows = I ∧ s.1.cols = R ∧ s.2.1.rows = I ∧ s.2.1.cols = R ∧
    s.2.2.1.rows = I ∧ s.2.2.1.cols = R := by
  by_cases hdet : (usq L).det = 0
  · rw [ustepChk_none_of_singular cfg prox rho bsum L F factor_conv factor
      dual_var hdet] at hs
    exact absurd hs (by simp)
  · rw [ustepChk_eq cfg prox rho bsum L F factor_conv factor dual_var
      hproxR hproxC hdet hL1 hL2 hF1 hF2 hfc1 hfc2 hf1 hf2 hd1 hd2] at hs
    obtain rfl : ustepRaw cfg prox rho L F bsum factor_conv factor dual_var = s :=
      Option.some.inj hs
    refine ⟨?_, ?_, ?_, ?_, ?_, ?_⟩
    · simp [ustepRaw, utrans_rows, umul_cols, uadd_cols, hF2]
    · simp [ustepRaw, utrans_cols, umul_rows, uinvRaw_rows, hL1]
    · simp [ustepRaw, hproxR, utrans_rows, umul_cols, uadd_cols, hF2]
    · simp [ustepRaw, hproxC, utrans_cols, umul_rows, uinvRaw_rows, hL1]
    · simp [ustepRaw, usub_rows, uadd_rows, hd1]
    · simp [ustepRaw, usub_cols, uadd_cols, hd2]

/-- Partial-correctness shape invariant of the checked inner loop: on
well-shaped operands, whenever the loop returns at all, the returned
factor and dual variable have shape I x R. -/
theorem uloopChk_some_dims (cfg : CPDADMM) (prox : UProxFun) (rho bsum : ℝ)
    (L F factor_conv : UMat) {I R : ℕ}
    (hproxR : ∀ m dv r c hp, (prox m dv r c hp).rows = m.rows)
    (hproxC : ∀ m dv r c hp, (prox m dv r c hp).cols = m.cols)
    (hL1 : L.rows = R) (hL2 : L.cols = R)
    (hF1 : F.rows = R) (hF2 : F.cols = I)
    (hfc1 : factor_conv.rows = I) (hfc2 : factor_conv.cols = R)
    (itr : ℤ) (factor dual_var : UMat)
    (hf1 : factor.rows = I) (hf2 : factor.cols = R)
    (hd1 : dual_var.rows = I) (hd2 : dual_var.cols = R)
    (factor_out dual_out : UMat) (n : ℤ)
    (hloop : uloopChk cfg prox rho L F bsum factor_conv factor dual_var itr =
      some (factor_out, dual_out, n)) :
    factor_out.rows = I ∧ factor_out.cols = R ∧
    dual_out.rows = I ∧ dual_out.cols = R := by
  by_cases hdet : (usq L).det = 0
  · rw [uloopChk, ustepChk_none_of_singular cfg prox rho bsum L F factor_conv
      factor dual_var hdet] at hloop
    simp at hloop
  · obtain ⟨fo, dvo, m, heq, d1, d2, d3, d4⟩ :=
      uloopChk_dims cfg prox rho bsum L F factor_conv hproxR hproxC hdet
        hL1 hL2 hF1 hF2 hfc1 hfc2
        (cfg.n_iters - itr).toNat itr factor dual_var rfl hf1 hf2 hd1 hd2
    rw [heq] at hloop
    obtain ⟨rfl, rfl, rfl⟩ : fo = factor_out ∧ dvo = dual_out ∧ m = n := by
      simpa using hloop
    exact ⟨d1, d2, d3, d4⟩

/-- C5: for valid inputs (tensor_unfolding J x I, kr_product J x R, factor
and dual_var both I x R, shape-preserving proximal operator): whenever the
call returns at all, the returned factor and dual variable both have shape
I x R (the call raises instead, through numpy.linalg.inv, exactly when the
regularized matrix L is singular); when L is nonsingular the call does
return, with both outputs of shape I x R; and inside every inner iteration
that completes (any step size, coupling weight and well-shaped operands)
the ridge estimate, the new factor and the new dual variable all have
shape I x R, so factor and dual_var share shape (I, R) at every point
during the call. -/
theorem claim_C5_shape_preservation (cfg : CPDADMM) (prox : UProxFun) {J I R : ℕ}
    (tensor_unfolding kr_product factor dual_var : UMat) (bsum : ℝ)
    (hproxR : ∀ m dv r c hp, (prox m dv r c hp).rows = m.rows)
    (hproxC : ∀ m dv r c hp, (prox m dv r c hp).cols = m.cols)
    (ht1 : tensor_unfolding.rows = J) (ht2 : tensor_unfolding.cols = I)
    (hk1 : kr_product.rows = J) (hk2 : kr_product.cols = R)
    (hf1 : factor.rows = I) (hf2 : factor.cols = R)
    (hd1 : dual_var.rows = I) (hd2 : dual_var.cols = R) :
    (∀ factor_out dual_out,
      ucallChk cfg prox tensor_unfolding kr_product factor dual_var bsum =
        some (factor_out, dual_out) →
      factor_out.rows = I ∧ factor_out.cols = R ∧
      dual_out.rows = I ∧ dual_out.cols = R) ∧
    ((usq (uadd (umul (utrans kr_product) kr_product)
        (usmul (utrace (umul (utrans kr_product) kr_product) / (factor.cols : ℝ) + bsum)
          (ueye factor.cols)))).det ≠ 0 →
      ∃ factor_out dual_out,
        ucallChk cfg prox tensor_unfolding kr_product factor dual_var bsum =
          some (factor_out, dual_out) ∧
        factor_out.rows = I ∧ factor_out.cols = R ∧
        dual_out.rows = I ∧ dual_out.cols = R) ∧
    (∀ (rho' bsum' : ℝ) (L F fc f d : UMat) (s : UMat × UMat × UMat × ℝ × ℝ),
      L.rows = R → L.cols = R → F.rows = R → F.cols = I →
      fc.rows = I → fc.cols = R → f.rows = I → f.cols = R →
      d.rows = I → d.cols = R →
      ustepChk cfg prox rho' L F bsum' fc f d = some s →
      s.1.rows = I ∧ s.1.cols = R ∧ s.2.1.rows = I ∧ s.2.1.cols = R ∧
      s.2.2.1.rows = I ∧ s.2.2.1.cols = R) := by
  have h1 : umulChk (utrans kr_product) kr_product =
      some (umul (utrans kr_product) kr_product) := by
    simp [umulChk, utrans_cols]
  have h3 : umulChk (utrans kr_product) tensor_unfolding =
      some (umul (utrans kr_product) tensor_unfolding) := by
    simp [umulChk, utrans_cols, hk1, ht1]
  have h2 : uaddChk (umul (utrans kr_product) kr_product)
      (usmul (utrace (umul (utrans kr_product) kr_product) / (factor.cols : ℝ) + bsum)
        (ueye factor.cols)) =
      some (uadd (umul (utrans kr_product) kr_product)
        (usmul (utrace (umul (utrans kr_product) kr_product) / (factor.cols : ℝ) + bsum)
          (ueye factor.cols))) := by
    simp [uaddChk, umul_rows, umul_cols, usmul_rows, usmul_cols, ueye_rows,
      ueye_cols, utrans_rows, utrans_cols, hk2, hf2]
  refine ⟨?_, ?_, ?_⟩
  · intro factor_out dual_out hcall
    simp only [ucallChk, h1, h2, h3, Option.bind_eq_bind, Option.some_bind] at hcall
    cases hloop : uloopChk cfg prox
        (utrace (umul (utrans kr_product) kr_product) / (factor.cols : ℝ))
        (uadd (umul (utrans kr_product) kr_product)
          (usmul (utrace (umul (utrans kr_product) kr_product) / (factor.cols : ℝ) + bsum)
            (ueye factor.cols)))
        (umul (utrans kr_product) tensor_unfolding) bsum factor factor dual_var 0 with
    | none =>
      rw [hloop] at hcall
      simp at hcall
    | some out =>
      obtain ⟨fo, dvo, m⟩ := out
      rw [hloop] at hcall
      simp only [Option.some_bind, Option.some.injEq, Prod.mk.injEq] at hcall
      obtain ⟨rfl, rfl⟩ := hcall
      exact uloopChk_some_dims cfg prox
        (utrace (umul (utrans kr_product) kr_product) / (factor.cols : ℝ)) bsum
        (uadd (umul (utrans kr_product) kr_product)
          (usmul (utrace (umul (utrans kr_product) kr_product) / (factor.cols : ℝ) + bsum)
            (ueye factor.cols)))
        (umul (utrans kr_product) tensor_unfolding) factor hproxR hproxC
        (by simp [uadd_rows, umul_rows, utrans_rows, hk2])
        (by simp [uadd_cols, umul_cols, hk2])
        (by simp [umul_rows, utrans_rows, hk2])
        (by simp [umul_cols, ht2])
        hf1 hf2 0 factor dual_var hf1 hf2 hd1 hd2 fo dvo m hloop
  · intro hdet
    obtain ⟨fo, dvo, n, hloop, hdim1, hdim2, hdim3, hdim4⟩ :=
      uloopChk_dims cfg prox
        (utrace (umul (utrans kr_product) kr_product) / (factor.cols : ℝ)) bsum
        (uadd (umul (utrans kr_product) kr_product)
          (usmul (utrace (umul (utrans kr_product) kr_product) / (factor.cols : ℝ) + bsum)
            (ueye factor.cols)))
        (umul (utrans kr_product) tensor_unfolding) factor
        hproxR hproxC hdet
        (by simp [uadd_rows, umul_rows, utrans_rows, hk2])
        (by simp [uadd_cols, umul_cols, hk2])
        (by simp [umul_rows, utrans_rows, hk2])
        (by simp [umul_cols, ht2])
        hf1 hf2
        (cfg.n_iters - 0).toNat 0 factor dual_var rfl hf1 hf2 hd1 hd2
    refine ⟨fo, dvo, ?_, hdim1, hdim2, hdim3, hdim4⟩
    simp only [ucallChk, h1, h2, h3, Option.bind_eq_bind, Option.some_bind, hloop]
  · intro rho' bsum' L F fc f d s hL1 hL2 hF1 hF2 hfc1 hfc2 hg1 hg2 hh1 hh2 hs
    exact ustepChk_some_dims cfg prox rho' bsum' L F fc f d hproxR hproxC
      hL1 hL2 hF1 hF2 hfc1 hfc2 hg1 hg2 hh1 hh2 s hs

/-- A 1 x 1 array with a nonzero top-left entry carries a nonsingular
square matrix. -/
theorem usq_det_ne_of_one (a : UMat) (h1 : a.rows = 1) (h2 : a.entry 0 0 ≠ 0) :
    (usq a).det ≠ 0 := by
  obtain ⟨r, c, e⟩ := a
  obtain rfl : r = 1 := h1
  have hd : (usq (⟨1, c, e⟩ : UMat)).det = e 0 0 := Matrix.det_fin_one _
  rw [hd]
  exact h2

/-- A concrete well-shaped 1 x 1 array of ones. -/
def u1 : UMat := ⟨1, 1, fun _ _ => 1⟩

/-- Witness for C5 at a concrete well-shaped input (J = I = R = 1, where
the regularized matrix is [[2]], nonsingular): the call returns a pair of
1 x 1 arrays. -/
theorem claim_C5_shape_preservation_witness :
    ∃ factor_out dual_out,
      ucallChk cfgC7 uproxId u1 u1 u1 u1 0 = some (factor_out, dual_out) ∧
      factor_out.rows = 1 ∧ factor_out.cols = 1 ∧
      dual_out.rows = 1 ∧ dual_out.cols = 1 :=
  (claim_C5_shape_preservation cfgC7 uproxId u1 u1 u1 u1 0
    (fun _ _ _ _ _ => rfl) (fun _ _ _ _ _ => rfl)
    rfl rfl rfl rfl rfl rfl rfl rfl).2.1
    (usq_det_ne_of_one _ rfl
      (by norm_num [uadd, umul, usmul, ueye, utrans, utrace, u1,
        Finset.sum_range_one]))

/-! ## Store-passing embedding for the frame claim -/

/-- Read an array from the allocation store (the numpy arrays created so
far, in allocation order; an array reference is an index into it). -/
def uget (s : List UMat) (i : ℕ) : UMat := s.getD i ⟨0, 0, fun _ _ => 0⟩

/-- Allocate a fresh array: append it to the store and return the new
store together with the fresh reference. -/
def salloc (s : List UMat) (m : UMat) : List UMat × ℕ := (s ++ [m], s.length)

/-- Store-passing inner loop (src/admm.py lines 56-83): each iteration
allocates the three arrays its statements produce (factor_t from the ridge
update, the factor from the proximal operator, the dual variable from the
dual ascent) and rebinds the local references to them, exactly as each
numpy expression produces a new array that the python name is rebound to;
no operation ever writes into an existing store cell.  Expression
temporaries are not modelled as allocations since they are unobservable.
The proximal operator is the pure value function modelled from the spec
(section 4.2: it returns a new matrix, hence an allocation). -/
noncomputable def sloop (cfg : CPDADMM) (pfun : UProxFun) (rho : ℝ) (L F : UMat)
    (bsum : ℝ) (fcRef : ℕ) (s : List UMat) (fRef dRef : ℕ) (itr : ℤ) :
    List UMat × ℕ × ℕ :=
  let factor := uget s fRef
  let dual_var := uget s dRef
  let factor_conv := uget s fcRef
  let ftVal := utrans (umul (uinvRaw L)
    (uadd (uadd F (usmul rho (utrans (uadd factor dual_var))))
      (usmul bsum (utrans factor_conv))))
  let a1 := salloc s ftVal
  let fVal := pfun ftVal dual_var rho cfg.constraint cfg.hyperparams
  let a2 := salloc a1.1 fVal
  let dVal := usub (uadd dual_var fVal) ftVal
  let a3 := salloc a2.1 dVal
  let prim_res := unorm (usub fVal ftVal) / unorm fVal
  let dual_res := unorm (usub fVal factor) / unorm dVal
  if h : (prim_res < cfg.tol_error ∧ dual_res < cfg.tol_error) ∨
      itr + 1 ≥ cfg.n_iters then
    (a3.1, a2.2, a3.2)
  else
    sloop cfg pfun rho L F bsum fcRef a3.1 a2.2 a3.2 (itr + 1)
  termination_by (cfg.n_iters - itr).toNat
  decreasing_by
    push_neg at h
    omega

/-- Store-passing full call (src/admm.py lines 32-85): the four argument
arrays are the first four store cells (references 0 to 3, in parameter
order); rank, rho, L and F are computed from their values as in lines
49-53, and the loop starts from factor reference 2 and dual reference 3
with factor_conv anchored at reference 2. -/
noncomputable def scall (cfg : CPDADMM) (pfun : UProxFun)
    (tensor_unfolding kr_product factor dual_var : UMat) (bsum : ℝ) :
    List UMat × ℕ × ℕ :=
  let s0 : List UMat := [tensor_unfolding, kr_product, factor, dual_var]
  let rank := factor.cols
  let kr_hadamard := umul (utrans kr_product) kr_product
  let rho := utrace kr_hadamard / (rank : ℝ)
  let L := uadd kr_hadamard (usmul (rho + bsum) (ueye rank))
  let F := umul (utrans kr_product) tensor_unfolding
  sloop cfg pfun rho L F bsum 2 s0 2 3 0

/-- Three consecutive allocations extend the store by a suffix. -/
theorem append3_ext (s : List UMat) (a b c : UMat) :
    ∃ e0, s ++ [a] ++ [b] ++ [c] = s ++ e0 :=
  ⟨[a] ++ [b] ++ [c], by simp⟩

/-- Packaging lemma for the stop branch of the store-passing loop. -/
theorem store_ext_triple {x y : ℕ} (s e1 e2 e3 : List UMat)
    (hx : s.length ≤ x) (hy : s.length ≤ y) :
    ∃ ext, s ++ e1 ++ e2 ++ e3 = s ++ ext ∧ s.length ≤ x ∧ s.length ≤ y :=
  ⟨e1 ++ e2 ++ e3, by simp, hx, hy⟩

/-- Packaging lemma for the recursive branch of the store-passing loop. -/
theorem store_ext_trans {x y : ℕ} (s s' res e : List UMat)
    (hres : res = s' ++ e) (hs : ∃ e0, s' = s ++ e0)
    (hx : s'.length ≤ x) (hy : s'.length ≤ y) (hlen : s.length ≤ s'.length) :
    ∃ ext, res = s ++ ext ∧ s.length ≤ x ∧ s.length ≤ y := by
  obtain ⟨e0, rfl⟩ := hs
  exact ⟨e0 ++ e, by rw [hres, List.append_assoc], le_trans hlen hx, le_trans hlen hy⟩

/-- The inner loop only ever appends to the store, and the references it
returns point at arrays allocated by itself (at or beyond the end of the
incoming store). -/
theorem sloop_extends (cfg : CPDADMM) (pfun : UProxFun) (rho : ℝ) (L F : UMat)
    (bsum : ℝ) (fcRef : ℕ) :
    ∀ (fuel : ℕ) (s : List UMat) (fRef dRef : ℕ) (itr : ℤ),
      (cfg.n_iters - itr).toNat = fuel →
      ∃ ext, (sloop cfg pfun rho L F bsum fcRef s fRef dRef itr).1 = s ++ ext ∧
        s.length ≤ (sloop cfg pfun rho L F bsum fcRef s fRef dRef itr).2.1 ∧
        s.length ≤ (sloop cfg pfun rho L F bsum fcRef s fRef dRef itr).2.2 := by
  intro fuel
  induction fuel using Nat.strong_induction_on with
  | _ fuel ih =>
    intro s fRef dRef itr hfuel
    rw [sloop]
    simp only [salloc]
    split
    · exact store_ext_triple s _ _ _ (by simp) (by simp)
    · rename_i hcond
      push_neg at hcond
      obtain ⟨ext, he, h1, h2⟩ :=
        ih (cfg.n_iters - (itr + 1)).toNat (by omega) _ _ _ (itr + 1) rfl
      exact store_ext_trans s _ _ ext he (append3_ext s _ _ _) h1 h2 (by simp)

/-- C10: with the (spec-modelled) proximal operator a pure value function,
a call never writes into its argument arrays: after the call the first
four store cells still hold exactly tensor_unfolding, kr_product, factor
and dual_var as passed, and the returned factor and dual-variable
references are fresh allocations (index at least 4), distinct from all
four input arrays. -/
theorem claim_C10_no_mutation (cfg : CPDADMM) (pfun : UProxFun)
    (tensor_unfolding kr_product factor dual_var : UMat) (bsum : ℝ) :
    uget (scall cfg pfun tensor_unfolding kr_product factor dual_var bsum).1 0 =
      tensor_unfolding ∧
    uget (scall cfg pfun tensor_unfolding kr_product factor dual_var bsum).1 1 =
      kr_product ∧
    uget (scall cfg pfun tensor_unfolding kr_product factor dual_var bsum).1 2 =
      factor ∧
    uget (scall cfg pfun tensor_unfolding kr_product factor dual_var bsum).1 3 =
      dual_var ∧
    4 ≤ (scall cfg pfun tensor_unfolding kr_product factor dual_var bsum).2.1 ∧
    4 ≤ (scall cfg pfun tensor_unfolding kr_product factor dual_var bsum).2.2 := by
  obtain ⟨ext, he, h1, h2⟩ :=
    sloop_extends cfg pfun
      (utrace (umul (utrans kr_product) kr_product) / (factor.cols : ℝ))
      (uadd (umul (utrans kr_product) kr_product)
        (usmul (utrace (umul (utrans kr_product) kr_product) / (factor.cols : ℝ) + bsum)
          (ueye factor.cols)))
      (umul (utrans kr_product) tensor_unfolding) bsum 2
      (cfg.n_iters - 0).toNat
      [tensor_unfolding, kr_product, factor, dual_var] 2 3 0 rfl
  have hs : scall cfg pfun tensor_unfolding kr_product factor dual_var bsum =
      sloop cfg pfun
        (utrace (umul (utrans kr_product) kr_product) / (factor.cols : ℝ))
        (uadd (umul (utrans kr_product) kr_product)
          (usmul (utrace (umul (utrans kr_product) kr_product) / (factor.cols : ℝ) + bsum)
            (ueye factor.cols)))
        (umul (utrans kr_product) tensor_unfolding) bsum 2
        [tensor_unfolding, kr_product, factor, dual_var] 2 3 0 := rfl
  rw [hs, he]
  refine ⟨?_, ?_, ?_, ?_, ?_, ?_⟩
  · rfl
  · rfl
  · rfl
  · rfl
  · exact h1
  · exact h2
